import Mathlib

/-!
Verification of cmd/bolt-rawgen/main.go.

The program is modelled over lists of characters. The regeneration driver
of the source reads one file, removes every span matched by the Go regular
expression with pattern text
raw colon codegen colon begin, a non greedy nonempty gap, raw colon codegen
colon end, with the case insensitive and dot matches newline modes,
trims trailing spaces, newlines and carriage returns, re-parses the result,
walks every type declaration and appends a sentinel delimited generated
block for each raw eligible struct declaration, then writes the result back.
-/

deriving instance DecidableEq for Except

namespace RawGen

/-- Case-insensitive pattern match at the head of a character list, the
shallow embedding of the anchored step of the regular-expression search. -/
def matchesAt : List Char → List Char → Bool
  | [], _ => true
  | _ :: _, [] => false
  | p :: ps, c :: cs => (p.toLower == c.toLower) && matchesAt ps cs

/-- First case-insensitive occurrence of a pattern in a character list:
returns the text before the match and the text after it. -/
def splitFirst (pat : List Char) : List Char → Option (List Char × List Char)
  | [] => none
  | c :: cs =>
    if matchesAt pat (c :: cs) then some ([], List.drop pat.length (c :: cs))
    else
      match splitFirst pat cs with
      | none => none
      | some (pre, post) => some (c :: pre, post)

/-- Begin sentinel of a generated block, from the source regular expression
and the emitted header. -/
def beginMark : List Char := "//raw:codegen:begin".toList

/-- End sentinel of a generated block. -/
def endMark : List Char := "//raw:codegen:end".toList

theorem matchesAt_length {pat s : List Char} (h : matchesAt pat s = true) :
    pat.length ≤ s.length := by
  induction pat generalizing s with
  | nil => simp
  | cons p ps ih =>
    cases s with
    | nil => simp [matchesAt] at h
    | cons c cs =>
      simp only [matchesAt, Bool.and_eq_true] at h
      simpa using ih h.2

theorem matchesAt_append_of_le {pat s : List Char} (t : List Char)
    (h : pat.length ≤ s.length) : matchesAt pat (s ++ t) = matchesAt pat s := by
  induction pat generalizing s with
  | nil => simp [matchesAt]
  | cons p ps ih =>
    cases s with
    | nil => simp at h
    | cons c cs =>
      simp only [List.cons_append, matchesAt, List.append_eq]
      rw [ih (by simpa using h)]

theorem matchesAt_extend {pat s : List Char} (t : List Char)
    (h : matchesAt pat s = true) : matchesAt pat (s ++ t) = true := by
  rw [matchesAt_append_of_le t (matchesAt_length h)]; exact h

theorem matchesAt_self (pat : List Char) (t : List Char) :
    matchesAt pat (pat ++ t) = true := by
  induction pat with
  | nil => simp [matchesAt]
  | cons p ps ih => simp [matchesAt, ih]

theorem splitFirst_length {pat s pre post : List Char}
    (h : splitFirst pat s = some (pre, post)) :
    pre.length + pat.length + post.length = s.length := by
  induction s generalizing pre post with
  | nil => simp [splitFirst] at h
  | cons c cs ih =>
    by_cases hm : matchesAt pat (c :: cs) = true
    · have hle := matchesAt_length hm
      have hstep : splitFirst pat (c :: cs) =
          some ([], List.drop pat.length (c :: cs)) := by
        simp [splitFirst, hm]
      rw [hstep] at h
      cases h
      simp only [List.length_nil, List.length_drop]
      simp only [List.length_cons] at hle ⊢
      omega
    · rw [Bool.not_eq_true] at hm
      have hstep : splitFirst pat (c :: cs) =
          match splitFirst pat cs with
          | none => none
          | some (pre', post') => some (c :: pre', post') := by
        simp [splitFirst, hm]
      rw [hstep] at h
      cases he : splitFirst pat cs with
      | none => rw [he] at h; cases h
      | some pr =>
        obtain ⟨pre', post'⟩ := pr
        rw [he] at h
        cases h
        have := ih he
        simp only [List.length_cons]
        omega

/-- Fuelled scan removing matched begin-to-end spans left to right. One
unit of fuel is spent per removed span; every removed span covers at least
the two sentinels, so fuel equal to the length of the text never runs out
and the fuelled scan agrees with the unbounded one. -/
def stripGo : Nat → List Char → List Char
  | 0, s => s
  | fuel + 1, s =>
    match splitFirst beginMark s with
    | none => s
    | some (pre, r) =>
      match r with
      | [] => s
      | _ :: r2 =>
        match splitFirst endMark r2 with
        | none => s
        | some (_, post) => pre ++ stripGo fuel post

/-- Removal of every matched begin-to-end span, the embedding of the
ReplaceAll call of process in the source. A begin sentinel with no later
end sentinel at distance at least one matches nothing and is kept. -/
def stripBlocks (s : List Char) : List Char := stripGo s.length s

/-- Fuelled count of matched occurrences of a pattern, scanning left to
right without overlap. -/
def countGo : Nat → List Char → List Char → Nat
  | 0, _, _ => 0
  | fuel + 1, pat, s =>
    match splitFirst pat s with
    | none => 0
    | some (_, post) => 1 + countGo fuel pat post

/-- Number of matched occurrences of a nonempty pattern; used to count
sentinel pairs in an output file. -/
def countOcc (pat s : List Char) : Nat := countGo s.length pat s

theorem splitFirst_cons_of_matches {pat : List Char} {c : Char} {cs : List Char}
    (hm : matchesAt pat (c :: cs) = true) :
    splitFirst pat (c :: cs) = some ([], List.drop pat.length (c :: cs)) := by
  simp [splitFirst, hm]

theorem splitFirst_cons_of_none {pat : List Char} {c : Char} {cs : List Char}
    (hm : matchesAt pat (c :: cs) = false)
    (h : splitFirst pat cs = none) :
    splitFirst pat (c :: cs) = none := by
  simp [splitFirst, hm, h]

theorem splitFirst_cons_of_some {pat : List Char} {c : Char} {cs pre post : List Char}
    (hm : matchesAt pat (c :: cs) = false)
    (h : splitFirst pat cs = some (pre, post)) :
    splitFirst pat (c :: cs) = some (c :: pre, post) := by
  simp [splitFirst, hm, h]

theorem splitFirst_cons_cons_inv {pat : List Char} {c : Char}
    {cs rest post : List Char}
    (h : splitFirst pat (c :: cs) = some (c :: rest, post)) :
    matchesAt pat (c :: cs) = false ∧ splitFirst pat cs = some (rest, post) := by
  by_cases hm : matchesAt pat (c :: cs) = true
  · rw [splitFirst_cons_of_matches hm] at h
    simp at h
  · rw [Bool.not_eq_true] at hm
    refine ⟨hm, ?_⟩
    cases he : splitFirst pat cs with
    | none => rw [splitFirst_cons_of_none hm he] at h; cases h
    | some pr =>
      obtain ⟨pre', post'⟩ := pr
      rw [splitFirst_cons_of_some hm he] at h
      have h1 : pre' = rest ∧ post' = post := by
        simp only [Option.some.injEq, Prod.mk.injEq, List.cons.injEq] at h
        exact ⟨h.1.2, h.2⟩
      rw [h1.1, h1.2]

theorem splitFirst_self_append {pat : List Char} (t : List Char) (hp : pat ≠ []) :
    splitFirst pat (pat ++ t) = some ([], t) := by
  cases pat with
  | nil => exact absurd rfl hp
  | cons p ps =>
    have hm : matchesAt (p :: ps) ((p :: ps) ++ t) = true := matchesAt_self _ _
    have hd : List.drop (p :: ps).length ((p :: ps) ++ t) = t :=
      List.drop_left (p :: ps) t
    rw [List.cons_append] at hm ⊢
    rw [splitFirst_cons_of_matches hm]
    rw [List.cons_append] at hd
    rw [hd]

theorem splitFirst_firstAt_extend {pat a : List Char} (t : List Char)
    (h : splitFirst pat (a ++ pat) = some (a, [])) :
    splitFirst pat (a ++ pat ++ t) = some (a, t) := by
  induction a with
  | nil =>
    have hp : pat ≠ [] := by
      intro he
      subst he
      simp [splitFirst] at h
    simpa using splitFirst_self_append t hp
  | cons c a' ih =>
    rw [List.cons_append] at h
    obtain ⟨hm, hrec⟩ := splitFirst_cons_cons_inv h
    have hrec2 := ih hrec
    have hmlen : pat.length ≤ (c :: (a' ++ pat)).length := by
      simp only [List.length_cons, List.length_append]
      omega
    have hm2 : matchesAt pat (c :: ((a' ++ pat) ++ t)) = false := by
      have hx := matchesAt_append_of_le (s := c :: (a' ++ pat)) t hmlen
      rw [List.cons_append] at hx
      rw [hx]
      exact hm
    have hgoal : splitFirst pat (c :: ((a' ++ pat) ++ t)) = some (c :: a', t) :=
      splitFirst_cons_of_some hm2 hrec2
    simpa only [List.cons_append] using hgoal

theorem splitFirst_none_of_firstAt {pat a : List Char}
    (h : splitFirst pat (a ++ pat) = some (a, [])) :
    splitFirst pat a = none := by
  induction a with
  | nil => rfl
  | cons c a' ih =>
    rw [List.cons_append] at h
    obtain ⟨hm, hrec⟩ := splitFirst_cons_cons_inv h
    have hnone := ih hrec
    have hm2 : matchesAt pat (c :: a') = false := by
      by_contra hc
      rw [Bool.not_eq_false] at hc
      have hx := matchesAt_extend (s := c :: a') pat hc
      rw [List.cons_append] at hx
      rw [hx] at hm
      cases hm
    exact splitFirst_cons_of_none hm2 hnone

/-- Trailing-whitespace characters trimmed by process: space, newline and
carriage return. -/
def isTrimChar (c : Char) : Bool := c == ' ' || c == '\n' || c == '\r'

/-- Removal of trailing spaces, newlines and carriage returns, the
embedding of the TrimRight call of process. -/
def trimRight (s : List Char) : List Char :=
  (s.reverse.dropWhile isTrimChar).reverse

theorem stripGo_of_no_begin {fuel : Nat} {s : List Char}
    (h : splitFirst beginMark s = none) : stripGo fuel s = s := by
  cases fuel with
  | zero => rfl
  | succ n => simp [stripGo, h]

theorem stripGo_step {fuel : Nat} {s pre r2 q post : List Char} {c : Char}
    (h1 : splitFirst beginMark s = some (pre, c :: r2))
    (h3 : splitFirst endMark r2 = some (q, post)) :
    stripGo (fuel + 1) s = pre ++ stripGo fuel post := by
  simp [stripGo, h1, h3]

theorem countGo_of_none {fuel : Nat} {pat s : List Char}
    (h : splitFirst pat s = none) : countGo fuel pat s = 0 := by
  cases fuel with
  | zero => rfl
  | succ n => simp [countGo, h]

theorem countGo_step {fuel : Nat} {pat s pre post : List Char}
    (h : splitFirst pat s = some (pre, post)) :
    countGo (fuel + 1) pat s = 1 + countGo fuel pat post := by
  simp [countGo, h]

theorem dropWhile_append_of_all {p : Char → Bool} {w : List Char}
    (hw : ∀ c ∈ w, p c = true) (r : List Char) :
    List.dropWhile p (w ++ r) = List.dropWhile p r := by
  induction w with
  | nil => rfl
  | cons c cs ih =>
    have hc : p c = true := hw c (by simp)
    simp only [List.cons_append, List.dropWhile_cons, hc, if_true]
    exact ih fun d hd => hw d (by simp [hd])

theorem trimRight_append_of_all {w : List Char}
    (hw : ∀ c ∈ w, isTrimChar c = true) (b : List Char) :
    trimRight (b ++ w) = trimRight b := by
  unfold trimRight
  rw [List.reverse_append]
  rw [dropWhile_append_of_all fun c hc => hw c (by simpa using hc)]

theorem trimRight_idem (s : List Char) : trimRight (trimRight s) = trimRight s := by
  unfold trimRight
  rw [List.reverse_reverse, List.dropWhile_idempotent]

/-- One field group of a struct type declaration: the identifier list and
the printed form of the declared type, as produced by tostr in the source.
A group with several identifiers models a declaration such as a pair of
names sharing one type; an embedded field has an empty identifier list. -/
structure Field where
  names : List (List Char)
  typ : List Char
deriving DecidableEq

/-- One type declaration met by the AST walk. The fields component is
present exactly when the declared type is a struct type. -/
structure TypeSpec where
  name : List Char
  fields : Option (List Field)
deriving DecidableEq

/-- Embedding of tocamelcase from the source: capitalise the first
character, keep the rest. -/
def tocamelcase : List Char → List Char
  | [] => []
  | c :: cs => c.toUpper :: cs

/-- Test of the source for exported names: the first character is upper
case. The empty name never arises from the parser and is mapped to false. -/
def headIsUpper : List Char → Bool
  | [] => false
  | c :: _ => c.isUpper

/-- Case list test for the signed integer tags of the switches in the
source. -/
def isIntTag (t : List Char) : Bool :=
  t == "int8".toList || t == "int16".toList || t == "int32".toList ||
    t == "int64".toList

/-- Case list test for the unsigned integer tags of the switches in the
source. -/
def isUintTag (t : List Char) : Bool :=
  t == "uint8".toList || t == "uint16".toList || t == "uint32".toList ||
    t == "uint64".toList

/-- Combined numeric case list of writeEncodeFunc in the source: signed,
unsigned and floating point. -/
def isNumTag (t : List Char) : Bool :=
  isIntTag t || isUintTag t || t == "float32".toList || t == "float64".toList

/-- Embedding of the switch of isRawStructType for one field type. -/
def isRawTypeStr (t : List Char) : Bool :=
  t == "bool".toList || isIntTag t || isUintTag t ||
    t == "float32".toList || t == "float64".toList ||
    t == "raw.Time".toList || t == "raw.Duration".toList ||
    t == "raw.String".toList

/-- Embedding of isRawStructType from the source: every field group has a
recognised raw type. -/
def isRawStructType (fields : List Field) : Bool :=
  fields.all fun f => isRawTypeStr f.typ

/-- External type of writeExportedType in the source, none on the default
branch. -/
def extTypeOf (t : List Char) : Option (List Char) :=
  if t == "bool".toList then some ("bool".toList)
  else if isIntTag t then some ("int".toList)
  else if isUintTag t then some ("uint".toList)
  else if t == "float32".toList then some ("float32".toList)
  else if t == "float64".toList then some ("float64".toList)
  else if t == "raw.Time".toList then some ("time.Time".toList)
  else if t == "raw.Duration".toList then some ("time.Duration".toList)
  else if t == "raw.String".toList then some ("string".toList)
  else none

/-- Field lines of writeExportedType, one line per identifier of each
group, in declaration order. -/
def expLines : List Field → Except (List Char) (List Char)
  | [] => .ok []
  | f :: fs =>
    match extTypeOf f.typ with
    | none => .error ("invalid raw type: ".toList ++ f.typ)
    | some t =>
      match expLines fs with
      | .error e => .error e
      | .ok rest =>
        .ok ((f.names.map fun n =>
          "\t".toList ++ tocamelcase n ++ " ".toList ++ t ++ "\n".toList).flatten
          ++ rest)

/-- Embedding of writeExportedType from the source. -/
def writeExportedType (name : List Char) (fields : List Field) :
    Except (List Char) (List Char) :=
  match expLines fields with
  | .error e => .error e
  | .ok body =>
    .ok ("type ".toList ++ name ++ " struct \x7b\n".toList ++ body
      ++ "\x7d\n\n".toList)

/-- Encode assignment lines of one field group. The source declares the
local typ per field and overwrites it with the text uint inside the loop
over the identifiers after every numeric identifier; the error on the
default branch prints the original declared type. Both are kept verbatim. -/
def encNames (origTyp : List Char) : List Char → List (List Char) →
    Except (List Char) (List Char)
  | _, [] => .ok []
  | typ, n :: ns =>
    if typ == "bool".toList then
      match encNames origTyp typ ns with
      | .error e => .error e
      | .ok rest =>
        .ok ("\tr.".toList ++ n ++ " = o.".toList ++ tocamelcase n
          ++ "\n".toList ++ rest)
    else if isNumTag typ then
      match encNames origTyp ("uint".toList) ns with
      | .error e => .error e
      | .ok rest =>
        .ok ("\tr.".toList ++ n ++ " = ".toList ++ typ ++ "(o.".toList
          ++ tocamelcase n ++ ")\n".toList ++ rest)
    else if typ == "raw.Time".toList then
      match encNames origTyp typ ns with
      | .error e => .error e
      | .ok rest =>
        .ok ("\tr.".toList ++ n ++ " = raw.Time(o.".toList ++ tocamelcase n
          ++ ".UnixNano())\n".toList ++ rest)
    else if typ == "raw.Duration".toList then
      match encNames origTyp typ ns with
      | .error e => .error e
      | .ok rest =>
        .ok ("\tr.".toList ++ n ++ " = raw.Duration(o.".toList
          ++ tocamelcase n ++ ")\n".toList ++ rest)
    else if typ == "raw.String".toList then
      match encNames origTyp typ ns with
      | .error e => .error e
      | .ok rest =>
        .ok ("\tr.".toList ++ n ++ ".Encode(o.".toList ++ tocamelcase n
          ++ ", &b)\n".toList ++ rest)
    else .error ("invalid raw type: ".toList ++ origTyp)

/-- Encode assignment lines over all field groups. -/
def encFields : List Field → Except (List Char) (List Char)
  | [] => .ok []
  | f :: fs =>
    match encNames f.typ f.typ f.names with
    | .error e => .error e
    | .ok lines =>
      match encFields fs with
      | .error e => .error e
      | .ok rest => .ok (lines ++ rest)

/-- Embedding of writeEncodeFunc from the source. -/
def writeEncodeFunc (unexp exp : List Char) (fields : List Field) :
    Except (List Char) (List Char) :=
  match encFields fields with
  | .error e => .error e
  | .ok body =>
    .ok ("func (o *".toList ++ exp ++ ") Encode() []byte \x7b\n".toList
      ++ "\tvar r ".toList ++ unexp ++ "\n".toList
      ++ "\tb := make([]byte, unsafe.Sizeof(r), int(unsafe.Sizeof(r)))\n".toList
      ++ body
      ++ "\tcopy(b, (*[unsafe.Sizeof(r)]byte)(unsafe.Pointer(&r))[:])\n".toList
      ++ "\treturn b\n".toList
      ++ "\x7d\n\n".toList)

/-- Embedding of writeDecodeFunc from the source. The source version
returns an error value that is nil on every path, so the embedding is a
plain function. -/
def writeDecodeFunc (unexp exp : List Char) (fields : List Field) :
    List Char :=
  "func (o *".toList ++ exp ++ ") Decode(b []byte) \x7b\n".toList
  ++ "\tr := (*".toList ++ unexp ++ ")(unsafe.Pointer(&b[0]))\n".toList
  ++ (fields.map fun f => (f.names.map fun n =>
        "\to.".toList ++ tocamelcase n ++ " = r.".toList ++ tocamelcase n
          ++ "()\n".toList).flatten).flatten
  ++ "\x7d\n\n".toList

/-- Accessor lines of one field group of writeAccessorFuncs. -/
def accNames (name typ : List Char) : List (List Char) →
    Except (List Char) (List Char)
  | [] => .ok []
  | n :: ns =>
    let line? : Except (List Char) (List Char) :=
      if typ == "bool".toList then
        .ok ("func (r *".toList ++ name ++ ") ".toList ++ tocamelcase n
          ++ "() bool \x7b return r.".toList ++ n ++ " \x7d\n\n".toList)
      else if isIntTag typ then
        .ok ("func (r *".toList ++ name ++ ") ".toList ++ tocamelcase n
          ++ "() int \x7b return int(r.".toList ++ n ++ ") \x7d\n\n".toList)
      else if isUintTag typ then
        .ok ("func (r *".toList ++ name ++ ") ".toList ++ tocamelcase n
          ++ "() uint \x7b return uint(r.".toList ++ n ++ ") \x7d\n\n".toList)
      else if typ == "float32".toList || typ == "float64".toList then
        .ok ("func (r *".toList ++ name ++ ") ".toList ++ tocamelcase n
          ++ "() ".toList ++ typ ++ " \x7b return r.".toList ++ n
          ++ " \x7d\n\n".toList)
      else if typ == "raw.Time".toList then
        .ok ("func (r *".toList ++ name ++ ") ".toList ++ tocamelcase n
          ++ "() time.Time \x7b return time.Unix(0, int64(r.".toList ++ n
          ++ ")).UTC() \x7d\n\n".toList)
      else if typ == "raw.Duration".toList then
        .ok ("func (r *".toList ++ name ++ ") ".toList ++ tocamelcase n
          ++ "() time.Duration \x7b return time.Duration(r.".toList ++ n
          ++ ") \x7d\n\n".toList)
      else if typ == "raw.String".toList then
        .ok ("func (r *".toList ++ name ++ ") ".toList ++ tocamelcase n
          ++ "() string \x7b return r.".toList ++ n
          ++ ".String(((*[0xFFFF]byte)(unsafe.Pointer(r)))[:]) \x7d\n".toList
          ++ "func (r *".toList ++ name ++ ") ".toList ++ tocamelcase n
          ++ "Bytes() []byte \x7b return r.".toList ++ n
          ++ ".Bytes(((*[0xFFFF]byte)(unsafe.Pointer(r)))[:]) \x7d\n\n".toList)
      else .error ("invalid raw type: ".toList ++ typ)
    match line? with
    | .error e => .error e
    | .ok line =>
      match accNames name typ ns with
      | .error e => .error e
      | .ok rest => .ok (line ++ rest)

/-- Embedding of writeAccessorFuncs from the source; name is the
unexported record name. -/
def writeAccessorFuncs (name : List Char) (fields : List Field) :
    Except (List Char) (List Char) :=
  match fields with
  | [] => .ok []
  | f :: fs =>
    match accNames name f.typ f.names with
    | .error e => .error e
    | .ok lines =>
      match writeAccessorFuncs name fs with
      | .error e => .error e
      | .ok rest => .ok (lines ++ rest)

/-- Boilerplate comment emitted between the begin sentinel and the
generated declarations. -/
def blockHeader : List Char :=
  ("\n\n//\n// DO NOT CHANGE\n"
    ++ "// This section has been generated by bolt-rawgen.\n//\n\n").toList

/-- Classification used by the walk: a declaration receives a generated
block exactly when it is a struct type all of whose fields are raw. -/
def eligibleB (node : TypeSpec) : Bool :=
  match node.fields with
  | none => false
  | some flds => isRawStructType flds

/-- Embedding of visitTypeSpec from the source: skip non-structs and
non-raw structs, reject exported raw structs, otherwise produce the body
of the generated block. The payloads of the wrapper errors abbreviate the
Go rendering of the AST node, which embeds memory addresses; no claim
depends on their text, only on the presence of the error. -/
def visitTypeSpec (node : TypeSpec) : Except (List Char) (Option (List Char)) :=
  match node.fields with
  | none => .ok none
  | some flds =>
    if !isRawStructType flds then .ok none
    else if headIsUpper node.name then
      .error ("raw struct cannot be exported: ".toList ++ node.name)
    else
      let unexp := node.name
      let exp := tocamelcase node.name
      match writeExportedType exp flds with
      | .error _ => .error ("generate exported type: <struct>".toList)
      | .ok expTxt =>
        match writeEncodeFunc unexp exp flds with
        | .error _ => .error ("generate encode func: <struct>".toList)
        | .ok encTxt =>
          let decTxt := writeDecodeFunc unexp exp flds
          match writeAccessorFuncs unexp flds with
          | .error _ => .error ("generate accessor funcs: <struct>".toList)
          | .ok accTxt =>
            .ok (some (blockHeader ++ expTxt ++ encTxt ++ decTxt ++ accTxt))

/-- Separator the driver always writes after the stripped content. -/
def nl2 : List Char := "\n\n".toList

/-- A generated block as written to the buffer: begin sentinel, body, end
sentinel, blank line. -/
def wrapBlock (bd : List Char) : List Char := beginMark ++ bd ++ endMark ++ nl2

/-- Concatenated generated blocks of one processing pass. -/
def genOut (bodies : List (List Char)) : List Char := (bodies.map wrapBlock).flatten

/-- Embedding of the AST walk of the generator: visit the type
declarations in file order, stop at the first error, collect the block
bodies of the eligible declarations in order. -/
def runGen : List TypeSpec → Except (List Char) (List (List Char))
  | [] => .ok []
  | d :: ds =>
    match visitTypeSpec d with
    | .error e => .error e
    | .ok none => runGen ds
    | .ok (some bd) =>
      match runGen ds with
      | .error e => .error e
      | .ok rest => .ok (bd :: rest)

/-- Embedding of process from the source: strip the sentinel spans, trim
trailing whitespace, parse (the Go parser is an external collaborator,
passed as a function), walk and generate, and on success return the bytes
written back: stripped content, blank separator, generated blocks. -/
def processMdl (parse : List Char → Option (List TypeSpec))
    (content : List Char) : Except (List Char) (List Char) :=
  match parse (trimRight (stripBlocks content)) with
  | none => .error ("parse error".toList)
  | some decls =>
    match runGen decls with
    | .error e => .error e
    | .ok bodies =>
      .ok (trimRight (stripBlocks content) ++ nl2 ++ genOut bodies)

/-- Embedding of process including its persistence step. The second
component records whether the OK line is printed. The source calls
WriteFile and discards its error value, so the outcome of the write, given
as writeRes, influences neither component; this mirrors line 114 of the
source, where the return value of WriteFile is not inspected. -/
def processFull (parse : List Char → Option (List TypeSpec))
    (writeRes : Except (List Char) Unit) (content : List Char) :
    Except (List Char) (List Char) × Bool :=
  match processMdl parse content with
  | .error e => (.error e, false)
  | .ok out => (.ok out, true)

/-- Newline remnants left by the strip: each removed block leaves the
blank pair that followed its end sentinel. -/
def nlRep (bodies : List (List Char)) : List Char :=
  (bodies.map fun _ => nl2).flatten

theorem nlRep_trim {bodies : List (List Char)} :
    ∀ c ∈ nlRep bodies, isTrimChar c = true := by
  intro c hc
  simp only [nlRep, List.mem_flatten, List.mem_map] at hc
  obtain ⟨l, hl, hcl⟩ := hc
  obtain ⟨bd, _, rfl⟩ := hl
  have hn : nl2 = ['\n', '\n'] := rfl
  rw [hn] at hcl
  have hc2 : c = '\n' := by simpa using hcl
  subst hc2
  rfl

theorem genOut_length_ge (bodies : List (List Char)) :
    bodies.length ≤ (genOut bodies).length := by
  induction bodies with
  | nil => simp [genOut]
  | cons bd rest ih =>
    have hb : beginMark.length = 19 := rfl
    have he : endMark.length = 17 := rfl
    have hn : nl2.length = 2 := rfl
    simp only [genOut, List.map_cons, List.flatten_cons, wrapBlock,
      List.length_append, List.length_cons] at ih ⊢
    omega

/-- Key structure lemma: scanning the stripped-and-regenerated text
removes exactly the generated blocks, leaving the head text and one blank
pair per block, provided the head has no earlier begin sentinel and no
block body has an earlier end sentinel. -/
theorem stripGo_genOut {bodies : List (List Char)}
    (hgood : ∀ bd ∈ bodies, bd ≠ [] ∧
      splitFirst endMark (bd.tail ++ endMark) = some (bd.tail, []))
    {a : List Char}
    (ha : splitFirst beginMark (a ++ beginMark) = some (a, []))
    {fuel : Nat} (hfuel : bodies.length ≤ fuel) :
    stripGo fuel (a ++ genOut bodies) = a ++ nlRep bodies := by
  induction bodies generalizing a fuel with
  | nil =>
    have hnone : splitFirst beginMark a = none := splitFirst_none_of_firstAt ha
    simp only [genOut, List.map_nil, List.flatten_nil, List.append_nil, nlRep]
    exact stripGo_of_no_begin hnone
  | cons bd rest ih =>
    cases fuel with
    | zero => simp at hfuel
    | succ f =>
      obtain ⟨hne, hend⟩ := hgood bd (by simp)
      obtain ⟨c, bdt, rfl⟩ : ∃ c bdt, bd = c :: bdt := by
        cases bd with
        | nil => exact absurd rfl hne
        | cons x xs => exact ⟨x, xs, rfl⟩
      have hsplit1 : splitFirst beginMark (a ++ genOut ((c :: bdt) :: rest)) =
          some (a, c :: (bdt ++ (endMark ++ (nl2 ++ genOut rest)))) := by
        have hx := splitFirst_firstAt_extend
          (t := (c :: bdt) ++ (endMark ++ (nl2 ++ genOut rest))) ha
        have hshape : a ++ genOut ((c :: bdt) :: rest) =
            a ++ beginMark ++ ((c :: bdt) ++ (endMark ++ (nl2 ++ genOut rest))) := by
          simp [genOut, wrapBlock, List.append_assoc]
        rw [hshape]
        simpa [List.cons_append] using hx
      have hsplit3 : splitFirst endMark (bdt ++ (endMark ++ (nl2 ++ genOut rest))) =
          some (bdt, nl2 ++ genOut rest) := by
        have hx := splitFirst_firstAt_extend (t := nl2 ++ genOut rest) hend
        simpa [List.append_assoc] using hx
      rw [stripGo_step hsplit1 hsplit3]
      have hnl : splitFirst beginMark (nl2 ++ beginMark) = some (nl2, []) := by
        decide
      have hfr : rest.length ≤ f := by
        simp only [List.length_cons] at hfuel
        omega
      rw [ih (fun bd2 hbd2 => hgood bd2 (by simp [hbd2])) hnl hfr]
      simp [nlRep]

/-- Counting version of the structure lemma: the output of one pass holds
exactly one begin sentinel per generated block. -/
theorem countGo_genOut {bodies : List (List Char)}
    (hnb : ∀ bd ∈ bodies, splitFirst beginMark
      ((bd ++ (endMark ++ nl2)) ++ beginMark) = some (bd ++ (endMark ++ nl2), []))
    {a : List Char}
    (ha : splitFirst beginMark (a ++ beginMark) = some (a, []))
    {fuel : Nat} (hfuel : bodies.length ≤ fuel) :
    countGo fuel beginMark (a ++ genOut bodies) = bodies.length := by
  induction bodies generalizing a fuel with
  | nil =>
    have hnone : splitFirst beginMark a = none := splitFirst_none_of_firstAt ha
    simp only [genOut, List.map_nil, List.flatten_nil, List.append_nil,
      List.length_nil]
    exact countGo_of_none hnone
  | cons bd rest ih =>
    cases fuel with
    | zero => simp at hfuel
    | succ f =>
      have hsplit1 : splitFirst beginMark (a ++ genOut (bd :: rest)) =
          some (a, bd ++ (endMark ++ (nl2 ++ genOut rest))) := by
        have hx := splitFirst_firstAt_extend
          (t := bd ++ (endMark ++ (nl2 ++ genOut rest))) ha
        have hshape : a ++ genOut (bd :: rest) =
            a ++ beginMark ++ (bd ++ (endMark ++ (nl2 ++ genOut rest))) := by
          simp [genOut, wrapBlock, List.append_assoc]
        rw [hshape]
        exact hx
      rw [countGo_step hsplit1]
      have hfr : rest.length ≤ f := by
        simp only [List.length_cons] at hfuel
        omega
      have htail : bd ++ (endMark ++ (nl2 ++ genOut rest)) =
          (bd ++ (endMark ++ nl2)) ++ genOut rest := by
        simp [List.append_assoc]
      rw [htail]
      rw [ih (fun bd2 hbd2 => hnb bd2 (by simp [hbd2])) (hnb bd (by simp)) hfr]
      simp [Nat.add_comm]

theorem visitTypeSpec_of_not_eligible {d : TypeSpec} (h : eligibleB d = false) :
    visitTypeSpec d = .ok none := by
  unfold eligibleB at h
  unfold visitTypeSpec
  cases hf : d.fields with
  | none => rfl
  | some flds =>
    rw [hf] at h
    simp at h
    simp [h]

theorem visitTypeSpec_exported {d : TypeSpec} {flds : List Field}
    (hf : d.fields = some flds) (hr : isRawStructType flds = true)
    (hu : headIsUpper d.name = true) :
    visitTypeSpec d =
      .error ("raw struct cannot be exported: ".toList ++ d.name) := by
  unfold visitTypeSpec
  rw [hf]
  simp [hr, hu]

theorem visitTypeSpec_eligible {d : TypeSpec} (h : eligibleB d = true) :
    (∃ e, visitTypeSpec d = .error e) ∨
      ∃ bd, visitTypeSpec d = .ok (some bd) := by
  unfold eligibleB at h
  cases hf : d.fields with
  | none => rw [hf] at h; simp at h
  | some flds =>
    rw [hf] at h
    simp at h
    by_cases hu : headIsUpper d.name = true
    · exact Or.inl ⟨_, visitTypeSpec_exported hf h hu⟩
    · rw [Bool.not_eq_true] at hu
      cases he1 : writeExportedType (tocamelcase d.name) flds with
      | error e =>
        exact Or.inl ⟨("generate exported type: <struct>").toList, by
          unfold visitTypeSpec; rw [hf]; simp [h, hu, he1]⟩
      | ok t1 =>
        cases he2 : writeEncodeFunc d.name (tocamelcase d.name) flds with
        | error e =>
          exact Or.inl ⟨("generate encode func: <struct>").toList, by
            unfold visitTypeSpec; rw [hf]; simp [h, hu, he1, he2]⟩
        | ok t2 =>
          cases he3 : writeAccessorFuncs d.name flds with
          | error e =>
            exact Or.inl ⟨("generate accessor funcs: <struct>").toList, by
              unfold visitTypeSpec; rw [hf]; simp [h, hu, he1, he2, he3]⟩
          | ok t3 =>
            exact Or.inr ⟨blockHeader ++ (t1 ++ (t2 ++
                (writeDecodeFunc d.name (tocamelcase d.name) flds ++ t3))), by
              unfold visitTypeSpec; rw [hf]; simp [h, hu, he1, he2, he3]⟩

theorem runGen_of_no_eligible {decls : List TypeSpec}
    (hel : ∀ d ∈ decls, eligibleB d = false) : runGen decls = .ok [] := by
  induction decls with
  | nil => rfl
  | cons d ds ih =>
    have hv := visitTypeSpec_of_not_eligible (hel d (by simp))
    simp only [runGen, hv]
    exact ih fun d2 hd2 => hel d2 (by simp [hd2])

theorem runGen_length {ds : List TypeSpec} {bodies : List (List Char)}
    (h : runGen ds = .ok bodies) :
    bodies.length = ds.countP eligibleB := by
  induction ds generalizing bodies with
  | nil =>
    cases h
    rfl
  | cons d ds ih =>
    by_cases hel : eligibleB d = true
    · rcases visitTypeSpec_eligible hel with ⟨e, hv⟩ | ⟨bd, hv⟩
      · simp [runGen, hv] at h
      · simp only [runGen, hv] at h
        cases hr : runGen ds with
        | error e2 => rw [hr] at h; cases h
        | ok rest =>
          rw [hr] at h
          cases h
          rw [List.countP_cons_of_pos eligibleB ds hel]
          simp [ih hr]
    · rw [Bool.not_eq_true] at hel
      have hv := visitTypeSpec_of_not_eligible hel
      simp only [runGen, hv] at h
      rw [List.countP_cons_of_neg eligibleB ds (by simp [hel])]
      exact ih h

theorem runGen_error_mem {pre post : List TypeSpec} {bad : TypeSpec}
    {bs : List (List Char)} {e : List Char}
    (hpre : runGen pre = .ok bs) (hbad : visitTypeSpec bad = .error e) :
    runGen (pre ++ bad :: post) = .error e := by
  induction pre generalizing bs with
  | nil =>
    simp only [List.nil_append, runGen, hbad]
  | cons d ds ih =>
    simp only [runGen] at hpre
    cases hv : visitTypeSpec d with
    | error e2 => rw [hv] at hpre; cases hpre
    | ok r =>
      rw [hv] at hpre
      cases r with
      | none =>
        simp only [List.cons_append, runGen, hv]
        exact ih hpre
      | some bd =>
        cases hr : runGen ds with
        | error e2 => rw [hr] at hpre; cases hpre
        | ok rest =>
          simp only [List.cons_append, runGen, hv, List.append_eq]
          rw [ih hr]

theorem processMdl_ok {parse : List Char → Option (List TypeSpec)}
    {content b : List Char} {decls : List TypeSpec} {bodies : List (List Char)}
    (hb : trimRight (stripBlocks content) = b)
    (hp : parse b = some decls)
    (hg : runGen decls = .ok bodies) :
    processMdl parse content = .ok (b ++ nl2 ++ genOut bodies) := by
  simp only [processMdl, hb, hp, hg]

theorem processMdl_error {parse : List Char → Option (List TypeSpec)}
    {content b : List Char} {decls : List TypeSpec} {e : List Char}
    (hb : trimRight (stripBlocks content) = b)
    (hp : parse b = some decls)
    (hg : runGen decls = .error e) :
    processMdl parse content = .error e := by
  simp only [processMdl, hb, hp, hg]

/-- C1: running the regeneration driver twice in a row on the same initial
file contents yields byte-identical output on the second run: stripping
the previously generated sentinel-delimited blocks, trimming trailing
whitespace and re-emitting reproduces exactly the bytes of the first run,
whenever the stripped hand-written portion holds no begin sentinel of its
own and the generated bodies hold no end sentinel of their own, the
well-formedness the block model of the spec presumes. -/
theorem process_idempotent
    (parse : List Char → Option (List TypeSpec)) (content b : List Char)
    (decls : List TypeSpec) (bodies : List (List Char))
    (hb : trimRight (stripBlocks content) = b)
    (hp : parse b = some decls)
    (hg : runGen decls = .ok bodies)
    (hhead : splitFirst beginMark ((b ++ nl2) ++ beginMark) = some (b ++ nl2, []))
    (hgood : ∀ bd ∈ bodies, bd ≠ [] ∧
      splitFirst endMark (bd.tail ++ endMark) = some (bd.tail, [])) :
    processMdl parse content = .ok (b ++ nl2 ++ genOut bodies) ∧
    processMdl parse (b ++ nl2 ++ genOut bodies) =
      .ok (b ++ nl2 ++ genOut bodies) := by
  refine ⟨processMdl_ok hb hp hg, ?_⟩
  have hbtrim : trimRight b = b := by rw [← hb, trimRight_idem]
  have hfuel : bodies.length ≤ (b ++ nl2 ++ genOut bodies).length := by
    have hg2 := genOut_length_ge bodies
    simp only [List.length_append]
    omega
  have hstrip : stripBlocks (b ++ nl2 ++ genOut bodies) =
      (b ++ nl2) ++ nlRep bodies := by
    unfold stripBlocks
    exact stripGo_genOut hgood hhead hfuel
  have hw : ∀ c ∈ nl2 ++ nlRep bodies, isTrimChar c = true := by
    intro c hc
    rcases List.mem_append.1 hc with hcn | hcr
    · have hnl : nl2 = ['\n', '\n'] := rfl
      rw [hnl] at hcn
      have hcc : c = '\n' := by simpa using hcn
      subst hcc
      rfl
    · exact nlRep_trim c hcr
  have htrim2 : trimRight (stripBlocks (b ++ nl2 ++ genOut bodies)) = b := by
    rw [hstrip, List.append_assoc, trimRight_append_of_all hw b, hbtrim]
  exact processMdl_ok htrim2 hp hg

/-- C2 amended: the driver emits one begin-and-end sentinel pair per
eligible declaration, not one per file: the output of a successful pass is
the stripped original content, the separator, then one generated block per
eligible declaration in declaration order, and the number of begin
sentinels in the output equals the number of eligible declarations. -/
theorem one_block_per_eligible
    (parse : List Char → Option (List TypeSpec)) (content b : List Char)
    (decls : List TypeSpec) (bodies : List (List Char))
    (hb : trimRight (stripBlocks content) = b)
    (hp : parse b = some decls)
    (hg : runGen decls = .ok bodies)
    (hhead : splitFirst beginMark ((b ++ nl2) ++ beginMark) = some (b ++ nl2, []))
    (hnb : ∀ bd ∈ bodies, splitFirst beginMark
      ((bd ++ (endMark ++ nl2)) ++ beginMark) =
        some (bd ++ (endMark ++ nl2), [])) :
    processMdl parse content = .ok (b ++ nl2 ++ genOut bodies) ∧
    countOcc beginMark (b ++ nl2 ++ genOut bodies) = decls.countP eligibleB ∧
    bodies.length = decls.countP eligibleB := by
  have hlen := runGen_length hg
  refine ⟨processMdl_ok hb hp hg, ?_, hlen⟩
  have hfuel : bodies.length ≤ (b ++ nl2 ++ genOut bodies).length := by
    have hg2 := genOut_length_ge bodies
    simp only [List.length_append]
    omega
  unfold countOcc
  rw [countGo_genOut hnb hhead hfuel, hlen]

/-- C4: a raw-eligible struct declaration whose name begins with an upper
case letter makes processing fail with the exported-raw error: the driver
returns the error, so the write step is never reached and no code is
emitted for the declaration. The declarations before it are assumed to
generate without error, since the walk stops at the first error. -/
theorem exported_raw_rejected
    (parse : List Char → Option (List TypeSpec)) (content b : List Char)
    (decls pre post : List TypeSpec) (bad : TypeSpec) (flds : List Field)
    (bs : List (List Char))
    (hb : trimRight (stripBlocks content) = b)
    (hp : parse b = some decls)
    (hd : decls = pre ++ bad :: post)
    (hf : bad.fields = some flds)
    (hr : isRawStructType flds = true)
    (hu : headIsUpper bad.name = true)
    (hpre : runGen pre = .ok bs) :
    processMdl parse content =
      .error ("raw struct cannot be exported: ".toList ++ bad.name) := by
  have hv := visitTypeSpec_exported hf hr hu
  have hrun := @runGen_error_mem pre post bad bs _ hpre hv
  rw [hd] at hp
  exact processMdl_error hb hp hrun

/-- C6: a struct declaration with any field whose declared type is outside
the closed raw primitive set is classified ineligible and silently
skipped: the visit returns no error and produces no generated block, even
when every other field has a valid raw type. -/
theorem nonraw_field_skipped (name : List Char) (flds : List Field) (f : Field)
    (hf : f ∈ flds) (hn : isRawTypeStr f.typ = false) :
    isRawStructType flds = false ∧
    visitTypeSpec ⟨name, some flds⟩ = .ok none := by
  have h1 : isRawStructType flds = false := by
    unfold isRawStructType
    rw [List.all_eq_false]
    exact ⟨f, hf, by simp [hn]⟩
  refine ⟨h1, ?_⟩
  exact visitTypeSpec_of_not_eligible (by simp [eligibleB, h1])

/-- C8 amended: for a candidate file with no eligible declarations the
written output is the stripped, right-trimmed original content followed by
the unconditional blank-line separator, and no generated block; the
separator is appended even in this case. -/
theorem no_eligible_appends_separator
    (parse : List Char → Option (List TypeSpec)) (content b : List Char)
    (decls : List TypeSpec)
    (hb : trimRight (stripBlocks content) = b)
    (hp : parse b = some decls)
    (hel : ∀ d ∈ decls, eligibleB d = false) :
    processMdl parse content = .ok (b ++ nl2) := by
  have hok := processMdl_ok hb hp (runGen_of_no_eligible hel)
  simpa [genOut] using hok

/-- Concrete declaration: type pt struct with a single field x of type
int32, unexported and raw-eligible. -/
def ptDecl : TypeSpec := ⟨"pt".toList, some [⟨["x".toList], "int32".toList⟩]⟩

/-- Parse stub for the one-declaration witness file: the hand-written
content is the single character h. -/
def pparse1 : List Char → Option (List TypeSpec) := fun s =>
  if s = "h".toList then some [ptDecl] else none

/-- Bodies generated for the one-declaration witness file. -/
def w1bodies : List (List Char) :=
  match runGen [ptDecl] with
  | .ok bs => bs
  | .error _ => []

set_option maxRecDepth 8000 in
theorem process_idempotent_witness :
    processMdl pparse1 ("h".toList) =
      .ok (("h".toList) ++ nl2 ++ genOut w1bodies) ∧
    processMdl pparse1 (("h".toList) ++ nl2 ++ genOut w1bodies) =
      .ok (("h".toList) ++ nl2 ++ genOut w1bodies) :=
  process_idempotent pparse1 ("h".toList) ("h".toList) [ptDecl] w1bodies
    (by decide) (by decide) (by rfl) (by decide) (by decide)

/-- Concrete declaration: type qt struct with a single field y of type
int64, unexported and raw-eligible. -/
def qtDecl : TypeSpec := ⟨"qt".toList, some [⟨["y".toList], "int64".toList⟩]⟩

/-- Parse stub for the two-declaration counterexample file. -/
def pparse2 : List Char → Option (List TypeSpec) := fun s =>
  if s = "hh".toList then some [ptDecl, qtDecl] else none

/-- Bodies generated for the two-declaration file. -/
def w2bodies : List (List Char) :=
  match runGen [ptDecl, qtDecl] with
  | .ok bs => bs
  | .error _ => []

/-- Output of processing the two-declaration file. -/
def out2 : List Char := ("hh".toList) ++ nl2 ++ genOut w2bodies

set_option maxRecDepth 8000 in
theorem blocks_per_decl_cex :
    processMdl pparse2 ("hh".toList) = .ok out2 ∧
    countOcc beginMark out2 = 2 ∧
    countOcc beginMark out2 ≠ 1 ∧
    countOcc endMark out2 = 2 :=
  ⟨by decide, by decide, by decide, by decide⟩

set_option maxRecDepth 8000 in
theorem one_block_per_eligible_witness :
    processMdl pparse2 ("hh".toList) =
      .ok (("hh".toList) ++ nl2 ++ genOut w2bodies) ∧
    countOcc beginMark (("hh".toList) ++ nl2 ++ genOut w2bodies) =
      ([ptDecl, qtDecl] : List TypeSpec).countP eligibleB ∧
    w2bodies.length = ([ptDecl, qtDecl] : List TypeSpec).countP eligibleB :=
  one_block_per_eligible pparse2 ("hh".toList) ("hh".toList) [ptDecl, qtDecl]
    w2bodies (by decide) (by decide) (by rfl) (by decide) (by decide)

/-- Concrete declaration: type Bad struct, already exported, all fields
raw. -/
def badDecl : TypeSpec := ⟨"Bad".toList, some [⟨["n".toList], "int32".toList⟩]⟩

/-- Parse stub for the exported-raw witness file. -/
def pparse4 : List Char → Option (List TypeSpec) := fun s =>
  if s = "h4".toList then some [badDecl] else none

set_option maxRecDepth 8000 in
theorem exported_raw_rejected_witness :
    processMdl pparse4 ("h4".toList) =
      .error ("raw struct cannot be exported: ".toList ++ badDecl.name) :=
  exported_raw_rejected pparse4 ("h4".toList) ("h4".toList) [badDecl] [] []
    badDecl [⟨["n".toList], "int32".toList⟩] []
    (by decide) (by decide) (by rfl) (by rfl) (by decide) (by decide) (by rfl)

/-- Parse stub for the write-failure file. -/
def pparse5 : List Char → Option (List TypeSpec) := fun s =>
  if s = "h5".toList then some [ptDecl] else none

set_option maxRecDepth 8000 in
/-- C5: contrary to the claim, a failing write is not surfaced. The
outcome of the persistence step does not influence the result of process
at all: with a failing write the driver still reports success and still
prints the OK line, because the source discards the error value returned
by WriteFile. -/
theorem write_error_ignored :
    processFull pparse5 (.error ("disk full".toList)) ("h5".toList) =
      processFull pparse5 (.ok ()) ("h5".toList) ∧
    (processFull pparse5 (.error ("disk full".toList)) ("h5".toList)).snd
      = true ∧
    (processFull pparse5 (.error ("disk full".toList))
      ("h5".toList)).fst.toOption.isSome = true :=
  ⟨rfl, by decide, by decide⟩

/-- Field list with one field outside the raw set and one inside it. -/
def mixFields : List Field :=
  [⟨["a".toList], "string".toList⟩, ⟨["b".toList], "int32".toList⟩]

set_option maxRecDepth 8000 in
theorem nonraw_field_skipped_witness :
    isRawStructType mixFields = false ∧
    visitTypeSpec ⟨"mix".toList, some mixFields⟩ = .ok none :=
  nonraw_field_skipped ("mix".toList) mixFields
    ⟨["a".toList], "string".toList⟩ (by decide) (by decide)

/-- Concrete ineligible declaration built on the mixed field list. -/
def nrDecl : TypeSpec := ⟨"mix".toList, some mixFields⟩

/-- Parse stub for the no-eligible-declaration file. -/
def pparse8 : List Char → Option (List TypeSpec) := fun s =>
  if s = "ha".toList then some [nrDecl] else none

set_option maxRecDepth 8000 in
theorem separator_appended_cex :
    processMdl pparse8 ("ha".toList) = .ok (("ha".toList) ++ nl2) ∧
    ("ha".toList) ++ nl2 ≠ ("ha".toList) ∧
    trimRight (stripBlocks ("ha".toList)) = ("ha".toList) :=
  ⟨by decide, by decide, by decide⟩

set_option maxRecDepth 8000 in
theorem no_eligible_appends_separator_witness :
    processMdl pparse8 ("ha".toList) = .ok (("ha".toList) ++ nl2) :=
  no_eligible_appends_separator pparse8 ("ha".toList) ("ha".toList) [nrDecl]
    (by decide) (by decide) (by decide)

set_option maxRecDepth 8000 in
/-- C9: a struct declaration with zero fields is raw-eligible, since the
all-fields-raw check holds vacuously; an unexported empty struct receives
a generated block whose exported type and Encode and Decode methods carry
no per-field lines, and an exported empty struct triggers the exported-raw
error. -/
theorem empty_struct_eligible :
    isRawStructType [] = true ∧
    visitTypeSpec ⟨"empty".toList, some []⟩ =
      .ok (some (blockHeader
        ++ ("type Empty struct \x7b\n\x7d\n\n").toList
        ++ (("func (o *Empty) Encode() []byte \x7b\n\tvar r empty\n"
            ++ "\tb := make([]byte, unsafe.Sizeof(r), int(unsafe.Sizeof(r)))\n"
            ++ "\tcopy(b, (*[unsafe.Sizeof(r)]byte)(unsafe.Pointer(&r))[:])\n"
            ++ "\treturn b\n\x7d\n\n").toList)
        ++ (("func (o *Empty) Decode(b []byte) \x7b\n"
            ++ "\tr := (*empty)(unsafe.Pointer(&b[0]))\n\x7d\n\n").toList))) ∧
    visitTypeSpec ⟨"Empty".toList, some []⟩ =
      .error (("raw struct cannot be exported: Empty").toList) :=
  ⟨rfl, by decide, by decide⟩

/-- Field group with two identifiers sharing one declared type, legal in
the source language. -/
def xyField : Field := ⟨["x".toList, "y".toList], "int32".toList⟩

set_option maxRecDepth 8000 in
/-- C10: the default invalid-raw-type branch of the encode emitter is
reachable for a classifier-accepted struct: a field group with two
identifiers of a numeric type passes isRawStructType, yet the encode
emitter overwrites its local type text with uint after the first
identifier and errors on the second, while the exported-type emitter
accepts the same field group. -/
theorem multiname_encode_error :
    isRawStructType [xyField] = true ∧
    writeEncodeFunc ("point".toList) ("Point".toList) [xyField] =
      .error (("invalid raw type: int32").toList) ∧
    (visitTypeSpec ⟨"point".toList, some [xyField]⟩).toOption = none ∧
    writeExportedType ("Point".toList) [xyField] =
      .ok (("type Point struct \x7b\n\tX int\n\tY int\n\x7d\n\n").toList) :=
  ⟨rfl, by decide, by decide, by decide⟩

/-- Specification-side external-type table, written from the words of the
claim: signed integer widths to int, unsigned widths to uint, bool and the
floats to themselves, raw.Time to time.Time, raw.Duration to
time.Duration, raw.String to string. -/
def specExtType (t : List Char) : List Char :=
  if isIntTag t then "int".toList
  else if isUintTag t then "uint".toList
  else if t == "bool".toList || t == "float32".toList
      || t == "float64".toList then t
  else if t == "raw.Time".toList then "time.Time".toList
  else if t == "raw.Duration".toList then "time.Duration".toList
  else if t == "raw.String".toList then "string".toList
  else []

/-- Specification-side rendering of the exported type declaration, written
from the words of the claim: one field per input field in declaration
order, first letter of each field name capitalised, external types from
the table. -/
def specExportedType (name : List Char) (flds : List Field) : List Char :=
  "type ".toList ++ name ++ " struct \x7b\n".toList
  ++ (flds.map fun f => (f.names.map fun n =>
        "\t".toList ++ tocamelcase n ++ " ".toList ++ specExtType f.typ
        ++ "\n".toList).flatten).flatten
  ++ "\x7d\n\n".toList

theorem extTypeOf_of_raw {t : List Char} (h : isRawTypeStr t = true) :
    extTypeOf t = some (specExtType t) := by
  unfold isRawTypeStr at h
  simp only [Bool.or_eq_true, beq_iff_eq] at h
  rcases h with (((((((h | h) | h) | h) | h) | h) | h) | h)
  · subst h; decide
  · unfold isIntTag at h
    simp only [Bool.or_eq_true, beq_iff_eq] at h
    rcases h with ((h | h) | h) | h <;> subst h <;> decide
  · unfold isUintTag at h
    simp only [Bool.or_eq_true, beq_iff_eq] at h
    rcases h with ((h | h) | h) | h <;> subst h <;> decide
  · subst h; decide
  · subst h; decide
  · subst h; decide
  · subst h; decide
  · subst h; decide

theorem expLines_of_raw {flds : List Field}
    (h : ∀ f ∈ flds, isRawTypeStr f.typ = true) :
    expLines flds = .ok ((flds.map fun f => (f.names.map fun n =>
      "\t".toList ++ tocamelcase n ++ " ".toList ++ specExtType f.typ
      ++ "\n".toList).flatten).flatten) := by
  induction flds with
  | nil => rfl
  | cons f fs ih =>
    have hext := extTypeOf_of_raw (h f (by simp))
    have ihh := ih fun g hg => h g (by simp [hg])
    simp only [expLines, hext, ihh, List.map_cons, List.flatten_cons]

/-- C7: for every raw-eligible field list, the emitted exported type
declaration equals the specification-side rendering: one field per input
field in declaration order, capitalised field names, and the declared
types mapped through the external-type table of the claim. -/
theorem exported_type_matches_spec (name : List Char) (flds : List Field)
    (h : ∀ f ∈ flds, isRawTypeStr f.typ = true) :
    writeExportedType name flds = .ok (specExportedType name flds) := by
  simp only [writeExportedType, expLines_of_raw h, specExportedType]

/-- Field list of the point scenario of the claim: two int32 fields x
and y. -/
def pointFields : List Field :=
  [⟨["x".toList], "int32".toList⟩, ⟨["y".toList], "int32".toList⟩]

set_option maxRecDepth 8000 in
theorem exported_type_matches_spec_witness :
    writeExportedType ("Point".toList) pointFields =
      .ok (specExportedType ("Point".toList) pointFields) ∧
    specExportedType ("Point".toList) pointFields =
      ("type Point struct \x7b\n\tX int\n\tY int\n\x7d\n\n").toList ∧
    writeAccessorFuncs ("point".toList) pointFields =
      .ok (("func (r *point) X() int \x7b return int(r.x) \x7d\n\n"
        ++ "func (r *point) Y() int \x7b return int(r.y) \x7d\n\n").toList) :=
  ⟨exported_type_matches_spec ("Point".toList) pointFields (by decide),
    by decide, by decide⟩

/-- Modelled from the spec: descriptor stored in the fixed region for a
string field, an offset and length pair locating the bytes in the string
region. The raw package defining it is code of this repository that is not
under src, so it follows sections 4.2 and 6 of the spec. -/
structure StrDesc where
  off : Nat
  len : Nat
deriving DecidableEq

/-- Modelled from the spec: the exported record of a declaration spanning
every supported tag. The external int and uint are sixty-four bit machine
integers, the floats are kept as bit patterns because the generated code
moves them only through identity conversions, time and duration are signed
nanosecond counts, the string is its character sequence. -/
structure RecPub where
  b : Bool
  i8 : Int
  i16 : Int
  i32 : Int
  i64 : Int
  u8 : Nat
  u16 : Nat
  u32 : Nat
  u64 : Nat
  f32 : Nat
  f64 : Nat
  t : Int
  d : Int
  s : List Char
deriving DecidableEq

/-- Modelled from the spec: the fixed-representation record, each numeric
field holding the value wrapped to its declared width, the string held as
a descriptor. -/
structure RecFix where
  b : Bool
  i8 : Int
  i16 : Int
  i32 : Int
  i64 : Int
  u8 : Nat
  u16 : Nat
  u32 : Nat
  u64 : Nat
  f32 : Nat
  f64 : Nat
  t : Int
  d : Int
  s : StrDesc
deriving DecidableEq

/-- Wrap of a signed conversion to width w in two-complement form, the
meaning of the Go conversions int8 through int64 emitted by the encode
writer. -/
def wrapS (w : Nat) (x : Int) : Int :=
  (x + 2 ^ (w - 1)) % 2 ^ w - 2 ^ (w - 1)

/-- Modular wrap of an unsigned conversion to width w. -/
def wrapU (w : Nat) (n : Nat) : Nat := n % 2 ^ w

/-- Maximum addressable window of the generated string accessors, the
hexadecimal FFFF bound in the emitted code. -/
def windowCap : Nat := 65535

/-- Modelled from the spec: runtime meaning of the generated Encode for
the all-tag record. Numeric fields are cast to their declared widths, time
is stored as its nanosecond count, the string encoder appends the bytes
after the fixed region and records a descriptor holding the absolute
offset. The size in bytes of the fixed region is the abstract parameter
fixedSize, since the layout computed by unsafe.Sizeof is outside the
embedding. -/
def rtEncode (fixedSize : Nat) (o : RecPub) : RecFix × List Char :=
  (⟨o.b, wrapS 8 o.i8, wrapS 16 o.i16, wrapS 32 o.i32, wrapS 64 o.i64,
    wrapU 8 o.u8, wrapU 16 o.u16, wrapU 32 o.u32, wrapU 64 o.u64,
    o.f32, o.f64, wrapS 64 o.t, wrapS 64 o.d,
    ⟨fixedSize, o.s.length⟩⟩, o.s)

/-- Modelled from the spec: the string accessor resolves the descriptor
over a window of at most windowCap bytes over the whole record buffer,
fixed region first, then the string region. -/
def stringFromWindow (fixedSize : Nat) (desc : StrDesc)
    (region : List Char) : List Char :=
  ((((List.replicate fixedSize ' ') ++ region).take windowCap).drop
    desc.off).take desc.len

/-- Modelled from the spec: runtime meaning of the generated Decode and
accessors for the all-tag record. Each numeric accessor widens the stored
value back to int or uint, the time accessor rebuilds the time from the
stored nanoseconds, the string accessor reads through the bounded
window. -/
def rtDecode (fixedSize : Nat) (buf : RecFix × List Char) : RecPub :=
  ⟨buf.fst.b, buf.fst.i8, buf.fst.i16, buf.fst.i32, buf.fst.i64,
    buf.fst.u8, buf.fst.u16, buf.fst.u32, buf.fst.u64,
    buf.fst.f32, buf.fst.f64, buf.fst.t, buf.fst.d,
    stringFromWindow fixedSize buf.fst.s buf.snd⟩

theorem wrapS_eq_self {w : Nat} {x : Int} (hw : 1 ≤ w)
    (h1 : -(2 ^ (w - 1) : Int) ≤ x) (h2 : x < 2 ^ (w - 1)) :
    wrapS w x = x := by
  unfold wrapS
  have hm : (2 : Int) ^ w = 2 * 2 ^ (w - 1) := by
    conv_lhs => rw [show w = w - 1 + 1 by omega]
    rw [pow_succ]
    ring
  have h0 : 0 ≤ x + 2 ^ (w - 1) := by linarith
  have hlt : x + 2 ^ (w - 1) < 2 ^ w := by
    rw [hm]
    linarith
  rw [Int.emod_eq_of_lt h0 hlt]
  ring

theorem wrapU_eq_self {w n : Nat} (h : n < 2 ^ w) : wrapU w n = n :=
  Nat.mod_eq_of_lt h

theorem stringFromWindow_eq_self {fixedSize : Nat} {s : List Char}
    (h : fixedSize + s.length ≤ windowCap) :
    stringFromWindow fixedSize ⟨fixedSize, s.length⟩ s = s := by
  unfold stringFromWindow
  have hlen : ((List.replicate fixedSize ' ') ++ s).length ≤ windowCap := by
    simp only [List.length_append, List.length_replicate]
    omega
  rw [List.take_of_length_le hlen]
  show (((List.replicate fixedSize ' ') ++ s).drop fixedSize).take s.length = s
  have hdrop := List.drop_left (List.replicate fixedSize (' ' : Char)) s
  rw [List.length_replicate] at hdrop
  rw [hdrop]
  simp

/-- C3 amended: for a record spanning every supported tag, the generated
Decode applied to the generated Encode output reproduces every field
exactly, provided each numeric value fits in its declared width, the time
and duration nanosecond counts fit in a signed sixty-four bit integer, and
the string region fits the addressable window; bool and the float bit
patterns round-trip unconditionally. Outside the declared widths the
numeric conversions truncate, see the counterexample. -/
theorem roundtrip_inrange (fixedSize : Nat) (o : RecPub)
    (h8 : -(2 ^ 7 : Int) ≤ o.i8 ∧ o.i8 < 2 ^ 7)
    (h16 : -(2 ^ 15 : Int) ≤ o.i16 ∧ o.i16 < 2 ^ 15)
    (h32 : -(2 ^ 31 : Int) ≤ o.i32 ∧ o.i32 < 2 ^ 31)
    (h64 : -(2 ^ 63 : Int) ≤ o.i64 ∧ o.i64 < 2 ^ 63)
    (hu8 : o.u8 < 2 ^ 8) (hu16 : o.u16 < 2 ^ 16)
    (hu32 : o.u32 < 2 ^ 32) (hu64 : o.u64 < 2 ^ 64)
    (ht : -(2 ^ 63 : Int) ≤ o.t ∧ o.t < 2 ^ 63)
    (hd : -(2 ^ 63 : Int) ≤ o.d ∧ o.d < 2 ^ 63)
    (hs : fixedSize + o.s.length ≤ windowCap) :
    rtDecode fixedSize (rtEncode fixedSize o) = o := by
  cases o with
  | mk b i8 i16 i32 i64 u8 u16 u32 u64 f32 f64 t d s =>
    simp only at h8 h16 h32 h64 hu8 hu16 hu32 hu64 ht hd hs
    unfold rtDecode rtEncode
    simp only [RecPub.mk.injEq]
    exact ⟨trivial,
      wrapS_eq_self (by omega) h8.1 h8.2,
      wrapS_eq_self (by omega) h16.1 h16.2,
      wrapS_eq_self (by omega) h32.1 h32.2,
      wrapS_eq_self (by omega) h64.1 h64.2,
      wrapU_eq_self hu8, wrapU_eq_self hu16,
      wrapU_eq_self hu32, wrapU_eq_self hu64,
      trivial, trivial,
      wrapS_eq_self (by omega) ht.1 ht.2,
      wrapS_eq_self (by omega) hd.1 hd.2,
      stringFromWindow_eq_self hs⟩

/-- Record with an int8 field whose value 300 exceeds the declared
width. -/
def oBad : RecPub := ⟨false, 300, 0, 0, 0, 0, 0, 0, 0, 0, 0, 0, 0, []⟩

/-- C3 counterexample: decode after encode does not reproduce the record
whose int8 field holds 300: the generated conversion to int8 truncates 300
to 44, so the round-trip claim fails as stated for records whose numeric
values exceed their declared widths. -/
theorem roundtrip_cex :
    rtDecode 64 (rtEncode 64 oBad) ≠ oBad ∧
    (rtDecode 64 (rtEncode 64 oBad)).i8 = 44 ∧ oBad.i8 = 300 :=
  ⟨by decide, by decide, by decide⟩

/-- Record with every field inside its declared width and a short
string. -/
def oGood : RecPub :=
  ⟨true, -5, 1000, -70000, 123456789012, 200, 60000, 4000000000,
    9876543210987, 3212836864, 4614256656552045848, 1700000000000000000,
    -42, "hi".toList⟩

theorem roundtrip_inrange_witness :
    rtDecode 64 (rtEncode 64 oGood) = oGood :=
  roundtrip_inrange 64 oGood (by decide) (by decide) (by decide) (by decide)
    (by decide) (by decide) (by decide) (by decide) (by decide) (by decide)
    (by decide)

end RawGen
